import Mathlib

/-!
Verification of the quiescent (single-threaded) semantics of
`gdul::concurrent_sorted_list<KeyType, ValueType, Comparator>`
(concurrent_sorted_list.h).

The list is an ordered singly-linked chain anchored at a permanent front
sentinel (`myFrontSentry`), plus an atomic size counter (`mySize`,
a `size_t`, i.e. an unsigned 64-bit integer).  We verify the operations at
quiescence, i.e. with no in-flight concurrent writers: each operation runs
its uncontended path (every CAS succeeds, no node is ever observed with a
set tag bit, the `try_pop_internal` claim loop runs exactly once with
`mine = true`, and `try_insert` is called until it succeeds — sequentially
its first CAS succeeds).  Under that projection:

* the chain reachable from the sentinel is a `List (Key × α)`;
* the counter is a `Nat` kept below `2^64`, with the wrapping unsigned
  arithmetic of the source made explicit via `% 2^64`;
* keys are `Nat` with the default `csldetail::tiny_less` comparator
  (`a < b`); the list's `static_assert` restricts keys to ordered scalars.

`try_pop_internal` reads `head->myKeyValuePair.first` without a null
check, so the embedding returns `Option`: `none` marks the null
dereference that occurs when the admission decrement succeeds on an empty
chain.
-/

namespace Gdul

/-- Key type: `uint64_t`-like keys of the default instantiation, with the
`tiny_less` comparator being `Nat` order. -/
abbrev Key := Nat

/-- Modulus of `size_type` (= `size_t`): 2^64. -/
def W : Nat := 2 ^ 64

/-- `std::numeric_limits<size_type>::max()`. -/
def sizeMax : Nat := W - 1

/-- `std::numeric_limits<size_type>::max() / 2`, the wrap-detection
threshold of `try_pop_internal` (named `threshhold` in the source). -/
def threshhold : Nat := sizeMax / 2

lemma W_eq : W = 18446744073709551616 := by norm_num [W]

lemma sizeMax_eq : sizeMax = 18446744073709551615 := by norm_num [sizeMax, W]

lemma threshhold_eq : threshhold = 9223372036854775807 := by
  norm_num [threshhold, sizeMax, W]

/-- Quiescent state of a `concurrent_sorted_list`: the chain of nodes
reachable from `myFrontSentry` by following `myNext` (each node carries its
`myKeyValuePair`), and the `mySize` counter. -/
structure CSL (α : Type) where
  chain : List (Key × α)
  mySize : Nat
deriving DecidableEq

/-- A freshly constructed list: `mySize(0)`, sentinel with null `myNext`. -/
def emptyList (α : Type) : CSL α := ⟨[], 0⟩

/-- `size()`: a plain load of `mySize`. -/
def size {α : Type} (s : CSL α) : Nat := s.mySize

/-- The chain mutation performed by `try_insert` (uncontended path): walk
from the sentinel while `current` exists and
`myComparator(entry.key, current.key)` is false (i.e. `current.key ≤ k`),
then link the new node before the first strictly greater node.  At
quiescence no tag bit is ever observed, so the splice branch of the walk
never runs. -/
def insertChain {α : Type} (k : Key) (v : α) : List (Key × α) → List (Key × α)
  | [] => [(k, v)]
  | (k₁, v₁) :: rest =>
    if k < k₁ then (k, v) :: (k₁, v₁) :: rest
    else (k₁, v₁) :: insertChain k v rest

/-- `insert(pair&&)`: allocate the node, loop `try_insert` until it
succeeds (sequentially the first attempt succeeds, and `try_insert` itself
surfaces no error), then `mySize.fetch_add(1)`. -/
def insert {α : Type} (s : CSL α) (k : Key) (v : α) : CSL α :=
  ⟨insertChain k v s.chain, (s.mySize + 1) % W⟩

/-- Outputs of `try_pop_internal`: the boolean return, the final value of
the caller's `expectedKey` reference, and the popped value if any. -/
structure PopRes (α : Type) where
  ret : Bool
  outKey : Key
  outValue : Option α
deriving DecidableEq

/-- `try_pop_internal(expectedKey, outValue, matchKey)`, quiescent path.

* `currentSize` is `mySize.fetch_sub(1) - 1`, i.e. the decremented counter
  with unsigned wrap.
* If `difference = max - currentSize` is below `threshhold`, the wrap is
  detected: `mySize.fetch_add(1)` restores the counter and the call fails.
* Otherwise `head = myFrontSentry->myNext.load()` is dereferenced without
  a null check (`none` models that dereference of a null head).
* On `matchKey & (expectedKey != key)` the source writes the head key into
  `expectedKey` and returns false WITHOUT restoring `mySize` — the
  embedding reproduces this faithfully (mySize stays `currentSize`).
* Otherwise the head is tagged and spliced out (uncontended: the CAS
  succeeds and `mine` holds), and its key/value are copied out. -/
def try_pop_internal {α : Type} (s : CSL α) (expectedKey : Key)
    (matchKey : Bool) : Option (PopRes α × CSL α) :=
  let currentSize := (s.mySize + sizeMax) % W
  let difference := sizeMax - currentSize
  if difference < threshhold then
    some (⟨false, expectedKey, none⟩, ⟨s.chain, (currentSize + 1) % W⟩)
  else
    match s.chain with
    | [] => none
    | (k, v) :: rest =>
      if matchKey && (expectedKey != k) then
        some (⟨false, k, none⟩, ⟨(k, v) :: rest, currentSize⟩)
      else
        some (⟨true, k, some v⟩, ⟨rest, currentSize⟩)

/-- `try_pop(value_type&)`: `try_pop_internal(dummy = 0, out, false)`. -/
def try_pop {α : Type} (s : CSL α) : Option (PopRes α × CSL α) :=
  try_pop_internal s 0 false

/-- `compare_try_pop(pair&)`: `try_pop_internal(out.first, out.second,
true)`. -/
def compare_try_pop {α : Type} (s : CSL α) (expectedKey : Key) :
    Option (PopRes α × CSL α) :=
  try_pop_internal s expectedKey true

/-- `try_peek_top_key(key&)`: one load of the sentinel's `myNext`; on null
return false leaving the out-slot alone, else copy the head key out.  The
state is returned unchanged (the source mutates nothing here). -/
def try_peek_top_key {α : Type} (s : CSL α) (out : Key) :
    Bool × Key × CSL α :=
  match s.chain with
  | [] => (false, out, s)
  | (k, _) :: _ => (true, k, s)

/-- `unsafe_clear()`: walks `mySize` steps from the sentinel collecting
node pointers, then stores null into each collected node's `myNext` (in
reverse), and stores 0 into `mySize`.  The sentinel's own `myNext` is
never touched, so when `mySize ≥ 1` the first collected node (the old
head) keeps hanging off the sentinel with its `myNext` nulled: the
reachable chain afterwards is the old head alone.  When `mySize = 0` the
loop body never runs and the chain is untouched.  If `mySize` exceeded the
chain length the walk would dereference null (`none`). -/
def unsafe_clear {α : Type} (s : CSL α) : Option (CSL α) :=
  if s.mySize ≤ s.chain.length then
    some ⟨if s.mySize = 0 then s.chain else s.chain.take 1, 0⟩
  else none

/-- States reachable from a fresh list by completed `insert`, `try_pop`,
`compare_try_pop` and `unsafe_clear` calls (`try_peek_top_key` and
`size` do not mutate the state). -/
inductive Reachable {α : Type} : CSL α → Prop
  | init : Reachable (emptyList α)
  | insert_step (s : CSL α) (k : Key) (v : α) :
      Reachable s → Reachable (insert s k v)
  | pop_step (s : CSL α) (e : Key) (m : Bool) (r : PopRes α) (s' : CSL α) :
      Reachable s → try_pop_internal s e m = some (r, s') → Reachable s'
  | clear_step (s s' : CSL α) :
      Reachable s → unsafe_clear s = some s' → Reachable s'

section Arith

lemma currentSize_of_zero : (0 + sizeMax) % W = sizeMax := by
  rw [sizeMax_eq, W_eq]

lemma currentSize_of_pos {c : Nat} (h0 : 0 < c) (hW : c < W) :
    (c + sizeMax) % W = c - 1 := by
  rw [sizeMax_eq, W_eq] at *
  omega

/-- Wrap detection fires exactly on `c = 0` or `c > 2^63 + 1` (for an
in-range counter). -/
lemma wrap_iff {c : Nat} (hW : c < W) :
    sizeMax - ((c + sizeMax) % W) < threshhold ↔
      c = 0 ∨ 9223372036854775809 < c := by
  rw [sizeMax_eq, threshhold_eq, W_eq] at *
  omega

end Arith

section InsertLemmas

variable {α : Type}

lemma insertChain_length (k : Key) (v : α) (l : List (Key × α)) :
    (insertChain k v l).length = l.length + 1 := by
  induction l with
  | nil => rfl
  | cons p t ih =>
    obtain ⟨k₁, v₁⟩ := p
    by_cases h : k < k₁ <;> simp [insertChain, h, ih]

/-- The inserted chain decomposes as `pre ++ (k, v) :: suf`, the original
chain is `pre ++ suf`, and every node of `pre` (the nodes the walk
stepped past) has a key `≤ k`. -/
lemma insertChain_parts (k : Key) (v : α) (l : List (Key × α)) :
    ∃ pre suf, insertChain k v l = pre ++ (k, v) :: suf ∧
      l = pre ++ suf ∧ ∀ p ∈ pre, p.1 ≤ k := by
  induction l with
  | nil => exact ⟨[], [], rfl, rfl, by simp⟩
  | cons p t ih =>
    obtain ⟨k₁, v₁⟩ := p
    by_cases h : k < k₁
    · exact ⟨[], (k₁, v₁) :: t, by simp [insertChain, h], rfl, by simp⟩
    · obtain ⟨pre, suf, h₁, h₂, h₃⟩ := ih
      refine ⟨(k₁, v₁) :: pre, suf, by simp [insertChain, h, h₁], by simp [h₂], ?_⟩
      intro p hp
      rcases List.mem_cons.mp hp with hp | hp
      · subst hp; exact Nat.le_of_not_lt h
      · exact h₃ p hp

lemma mem_insertChain {p : Key × α} {k : Key} {v : α} {l : List (Key × α)}
    (h : p ∈ insertChain k v l) : p = (k, v) ∨ p ∈ l := by
  induction l with
  | nil => simpa [insertChain] using h
  | cons q t ih =>
    obtain ⟨k₁, v₁⟩ := q
    by_cases hlt : k < k₁
    · rw [insertChain, if_pos hlt] at h
      rcases List.mem_cons.mp h with h | h
      · exact Or.inl h
      · exact Or.inr h
    · rw [insertChain, if_neg hlt] at h
      rcases List.mem_cons.mp h with h | h
      · exact Or.inr (by simp [h])
      · rcases ih h with h | h
        · exact Or.inl h
        · exact Or.inr (List.mem_cons_of_mem _ h)

lemma insertChain_sorted {k : Key} {v : α} {l : List (Key × α)}
    (h : (l.map Prod.fst).Sorted (· ≤ ·)) :
    ((insertChain k v l).map Prod.fst).Sorted (· ≤ ·) := by
  induction l with
  | nil => simp [insertChain]
  | cons q t ih =>
    obtain ⟨k₁, v₁⟩ := q
    rw [List.map_cons, List.sorted_cons] at h
    by_cases hlt : k < k₁
    · rw [insertChain, if_pos hlt, List.map_cons, List.map_cons,
        List.sorted_cons]
      refine ⟨?_, ?_⟩
      · intro b hb
        rcases List.mem_cons.mp hb with hb | hb
        · subst hb; exact Nat.le_of_lt hlt
        · exact Nat.le_trans (Nat.le_of_lt hlt) (h.1 b hb)
      · rw [List.sorted_cons]
        exact h
    · rw [insertChain, if_neg hlt, List.map_cons, List.sorted_cons]
      refine ⟨?_, ih h.2⟩
      intro b hb
      obtain ⟨p, hp, hb⟩ := List.mem_map.mp hb
      subst hb
      rcases mem_insertChain hp with hp | hp
      · subst hp; exact Nat.le_of_not_lt hlt
      · exact h.1 p.1 (List.mem_map.mpr ⟨p, hp, rfl⟩)

end InsertLemmas

section PopLemmas

variable {α : Type}

/-- With the counter at zero the admission decrement wraps; the restoring
`fetch_add(1)` brings the counter back to zero and nothing else happens. -/
lemma pop_at_zero (s : CSL α) (e : Key) (m : Bool) (h : s.mySize = 0) :
    try_pop_internal s e m = some (⟨false, e, none⟩, s) := by
  obtain ⟨chain, c⟩ := s
  simp only [CSL.mk.injEq] at h
  subst h
  rw [try_pop_internal]
  simp only [currentSize_of_zero]
  rw [if_pos]
  · have h1 : (sizeMax + 1) % W = 0 := by rw [sizeMax_eq, W_eq]
    simp [h1]
  · rw [sizeMax_eq, threshhold_eq]
    omega

/-- Uncontended successful pop: counter in admission range, head present,
and no key mismatch.  The head is unlinked from the sentinel and its
key/value are copied out; the counter stays at its decremented value. -/
lemma pop_success (s : CSL α) (k : Key) (v : α) (t : List (Key × α))
    (e : Key) (m : Bool) (hchain : s.chain = (k, v) :: t)
    (h1 : 1 ≤ s.mySize) (h2 : s.mySize ≤ 9223372036854775809)
    (hmatch : m = false ∨ e = k) :
    try_pop_internal s e m = some (⟨true, k, some v⟩, ⟨t, s.mySize - 1⟩) := by
  obtain ⟨chain, c⟩ := s
  simp only at hchain h1 h2 ⊢
  subst hchain
  rw [try_pop_internal]
  have hW : c < W := by rw [W_eq]; omega
  simp only [currentSize_of_pos h1 hW]
  rw [if_neg]
  · have hm : (m && (e != k)) = false := by
      rcases hmatch with hm | hm
      · simp [hm]
      · simp [hm]
    simp [hm]
  · rw [sizeMax_eq, threshhold_eq]
    omega

/-- `compare_try_pop` key-mismatch path: the head key is written into the
caller's expected-key slot, the chain is untouched, and the counter is
left at its decremented value (the source does not restore it here). -/
lemma pop_mismatch (s : CSL α) (k : Key) (v : α) (t : List (Key × α))
    (e : Key) (hchain : s.chain = (k, v) :: t)
    (h1 : 1 ≤ s.mySize) (h2 : s.mySize ≤ 9223372036854775809)
    (hne : e ≠ k) :
    try_pop_internal s e true =
      some (⟨false, k, none⟩, ⟨(k, v) :: t, s.mySize - 1⟩) := by
  obtain ⟨chain, c⟩ := s
  simp only at hchain h1 h2 ⊢
  subst hchain
  rw [try_pop_internal]
  have hW : c < W := by rw [W_eq]; omega
  simp only [currentSize_of_pos h1 hW]
  rw [if_neg]
  · simp [hne]
  · rw [sizeMax_eq, threshhold_eq]
    omega

/-- Case analysis for the preservation proofs: any completed
`try_pop_internal` keeps the counter in range and below the (possibly
shortened) chain length. -/
lemma pop_preserves (s : CSL α) (e : Key) (m : Bool) (r : PopRes α)
    (s' : CSL α) (hW : s.mySize < W) (hle : s.mySize ≤ s.chain.length)
    (h : try_pop_internal s e m = some (r, s')) :
    s'.mySize < W ∧ s'.mySize ≤ s'.chain.length ∧
      (s'.chain = s.chain ∨ s'.chain = s.chain.tail) := by
  obtain ⟨chain, c⟩ := s
  rw [try_pop_internal] at h
  simp only at hle hW ⊢
  by_cases hwrap : sizeMax - ((c + sizeMax) % W) < threshhold
  · rw [if_pos hwrap] at h
    simp only [Option.some.injEq, Prod.mk.injEq] at h
    obtain ⟨_, hs⟩ := h
    subst hs
    have h1 : ((c + sizeMax) % W + 1) % W = c := by
      rw [sizeMax_eq, W_eq] at *
      omega
    simp only [h1]
    exact ⟨hW, hle, Or.inl trivial⟩
  · rw [if_neg hwrap] at h
    have hc : 1 ≤ c := by
      by_contra hc
      have hc0 : c = 0 := by omega
      subst hc0
      rw [currentSize_of_zero] at hwrap
      rw [sizeMax_eq, threshhold_eq] at hwrap
      omega
    match chain, h with
    | (k, v) :: t, h =>
      simp only [currentSize_of_pos hc hW] at h
      by_cases hm : (m && (e != k)) = true
      · rw [if_pos hm] at h
        simp only [Option.some.injEq, Prod.mk.injEq] at h
        obtain ⟨_, hs⟩ := h
        subst hs
        simp only [List.length_cons] at hle ⊢
        refine ⟨by omega, by omega, Or.inl trivial⟩
      · rw [if_neg hm] at h
        simp only [Option.some.injEq, Prod.mk.injEq] at h
        obtain ⟨_, hs⟩ := h
        subst hs
        simp only [List.length_cons] at hle ⊢
        refine ⟨by omega, by omega, Or.inr rfl⟩

end PopLemmas

section Invariants

variable {α : Type}

/-- Counter invariant: in every reachable quiescent state the counter is a
valid `size_t` value and never exceeds the length of the reachable chain
(the `compare_try_pop` mismatch path can make it strictly smaller). -/
lemma reach_size_invariant {s : CSL α} (h : Reachable s) :
    s.mySize < W ∧ s.mySize ≤ s.chain.length := by
  induction h with
  | init =>
    refine ⟨?_, Nat.zero_le _⟩
    show (0 : Nat) < W
    rw [W_eq]
    omega
  | insert_step s k v _ ih =>
    refine ⟨Nat.mod_lt _ (by rw [W_eq]; omega), ?_⟩
    rw [insert, insertChain_length]
    exact Nat.le_trans (Nat.mod_le _ _) (Nat.succ_le_succ ih.2)
  | pop_step s e m r s' _ hpop ih =>
    have h := pop_preserves s e m r s' ih.1 ih.2 hpop
    exact ⟨h.1, h.2.1⟩
  | clear_step s s' _ hclear ih =>
    rw [unsafe_clear] at hclear
    split at hclear
    · simp only [Option.some.injEq] at hclear
      subst hclear
      refine ⟨?_, Nat.zero_le _⟩
      show (0 : Nat) < W
      rw [W_eq]
      omega
    · simp at hclear

/-- Ordering invariant: in every reachable quiescent state the key
sequence along the chain is sorted non-decreasingly. -/
lemma reach_sorted {s : CSL α} (h : Reachable s) :
    (s.chain.map Prod.fst).Sorted (· ≤ ·) := by
  induction h with
  | init => simp [emptyList]
  | insert_step s k v _ ih => exact insertChain_sorted ih
  | pop_step s e m r s' hr hpop ih =>
    have hinv := reach_size_invariant hr
    have h := pop_preserves s e m r s' hinv.1 hinv.2 hpop
    rcases h.2.2 with hc | hc
    · rw [hc]; exact ih
    · rw [hc]
      match s, ih with
      | ⟨[], c⟩, ih => exact ih
      | ⟨(k₁, v₁) :: t, c⟩, ih =>
        simp only [List.tail_cons]
        simp only [List.map_cons, List.sorted_cons] at ih
        exact ih.2
  | clear_step s s' _ hclear ih =>
    rw [unsafe_clear] at hclear
    split at hclear
    · simp only [Option.some.injEq] at hclear
      subst hclear
      show ((if s.mySize = 0 then s.chain else s.chain.take 1).map
        Prod.fst).Sorted (· ≤ ·)
      by_cases h0 : s.mySize = 0
      · rw [if_pos h0]; exact ih
      · rw [if_neg h0]
        have hsub : List.Sublist ((s.chain.take 1).map Prod.fst)
            (s.chain.map Prod.fst) :=
          (List.take_sublist 1 s.chain).map Prod.fst
        exact List.Pairwise.sublist hsub ih
    · simp at hclear

end Invariants

section Schedules

variable {α : Type}

/-- Insert-only phase of a schedule: perform `insert` for each pair of
`l`, in order, starting from a freshly constructed list. -/
def runInserts (l : List (Key × α)) : CSL α :=
  l.foldl (fun s p => insert s p.1 p.2) (emptyList α)

/-- Pop-only phase of a schedule: call `try_pop` up to `n` times,
collecting the keys handed out by the successful calls (once a call
returns false the list stayed unchanged, so further calls keep failing
and hand out nothing). -/
def popStep (res : Option (PopRes α × CSL α)) (rec : CSL α → List Key) :
    List Key :=
  match res with
  | some (r, s') => if r.ret then r.outKey :: rec s' else []
  | none => []

def popKeys : Nat → CSL α → List Key
  | 0, _ => []
  | n + 1, s => popStep (try_pop_internal s 0 false) (popKeys n)

lemma foldl_insert_wf :
    ∀ (l : List (Key × α)) (s : CSL α), s.mySize = s.chain.length →
      s.chain.length + l.length < W →
      (l.foldl (fun s p => insert s p.1 p.2) s).mySize =
          (l.foldl (fun s p => insert s p.1 p.2) s).chain.length ∧
        (l.foldl (fun s p => insert s p.1 p.2) s).chain.length =
          s.chain.length + l.length := by
  intro l
  induction l with
  | nil => intro s hwf _; exact ⟨hwf, rfl⟩
  | cons p t ih =>
    intro s hwf hbound
    rw [List.foldl_cons]
    have hlen : (insert s p.1 p.2).chain.length = s.chain.length + 1 := by
      rw [insert, insertChain_length]
    have hwf' : (insert s p.1 p.2).mySize = (insert s p.1 p.2).chain.length := by
      rw [insert, insertChain_length]
      show (s.mySize + 1) % W = s.chain.length + 1
      rw [hwf, Nat.mod_eq_of_lt (by simp at hbound; omega)]
    have hbound' : (insert s p.1 p.2).chain.length + t.length < W := by
      rw [hlen]
      simp only [List.length_cons] at hbound
      omega
    obtain ⟨h₁, h₂⟩ := ih (insert s p.1 p.2) hwf' hbound'
    refine ⟨h₁, ?_⟩
    rw [h₂, hlen, List.length_cons]
    omega

lemma foldl_insert_sorted :
    ∀ (l : List (Key × α)) (s : CSL α),
      (s.chain.map Prod.fst).Sorted (· ≤ ·) →
      (((l.foldl (fun s p => insert s p.1 p.2) s).chain.map
        Prod.fst)).Sorted (· ≤ ·) := by
  intro l
  induction l with
  | nil => intro s h; exact h
  | cons p t ih =>
    intro s h
    rw [List.foldl_cons]
    exact ih _ (insertChain_sorted h)

lemma popKeys_zero (s : CSL α) : popKeys 0 s = [] := rfl

lemma popKeys_succ (n : Nat) (s : CSL α) :
    popKeys (n + 1) s = popStep (try_pop_internal s 0 false) (popKeys n) :=
  rfl

lemma popStep_some (r : PopRes α) (s' : CSL α) (rec : CSL α → List Key) :
    popStep (some (r, s')) rec = if r.ret then r.outKey :: rec s' else [] :=
  rfl

/-- Draining a well-formed list yields exactly the first `n` chain keys,
in chain order. -/
lemma popKeys_eq_take :
    ∀ (n : Nat) (s : CSL α), s.mySize = s.chain.length →
      s.chain.length ≤ 9223372036854775809 →
      popKeys n s = (s.chain.map Prod.fst).take n := by
  intro n
  induction n with
  | zero => intro s _ _; rw [popKeys_zero, List.take_zero]
  | succ n ih =>
    intro s hwf hbound
    rcases hc : s.chain with _ | ⟨⟨k, v⟩, t⟩
    · have h0 : s.mySize = 0 := by rw [hwf, hc]; rfl
      have hpop := pop_at_zero s 0 false h0
      rw [popKeys_succ, hpop, popStep_some]
      simp
    · have h1 : 1 ≤ s.mySize := by rw [hwf, hc]; simp
      have h2 : s.mySize ≤ 9223372036854775809 := by
        rw [hwf]; exact hbound
      have hpop := pop_success s k v t 0 false hc h1 h2 (Or.inl rfl)
      have hwf' : (⟨t, s.mySize - 1⟩ : CSL α).mySize =
          (⟨t, s.mySize - 1⟩ : CSL α).chain.length := by
        show s.mySize - 1 = t.length
        rw [hwf, hc, List.length_cons]
        omega
      have hbound' : (⟨t, s.mySize - 1⟩ : CSL α).chain.length ≤
          9223372036854775809 := by
        show t.length ≤ _
        rw [hc] at hbound
        simp only [List.length_cons] at hbound
        omega
      have hrec := ih (⟨t, s.mySize - 1⟩ : CSL α) hwf' hbound'
      rw [popKeys_succ, hpop, popStep_some]
      simp only [List.map_cons, List.take_succ_cons]
      simp [hrec]

end Schedules

section ClaimHelpers

variable {α : Type}

/-- When a head node exists, `try_pop_internal` always completes (the
unguarded head dereference is safe): every branch returns `some`. -/
lemma pop_ne_none_of_cons (s : CSL α) (e : Key) (m : Bool) (k : Key)
    (v : α) (t : List (Key × α)) (hchain : s.chain = (k, v) :: t) :
    try_pop_internal s e m ≠ none := by
  obtain ⟨chain, c⟩ := s
  simp only at hchain
  subst hchain
  rw [try_pop_internal]
  by_cases hw : sizeMax - ((c + sizeMax) % W) < threshhold
  · simp [hw]
  · by_cases hm : (m && (e != k)) = true
    · simp [hw, hm]
    · simp [hw, hm]

end ClaimHelpers

section Claims

/-- Claim C1 (code-bug evidence): on the list holding the single node
`(4, 0)` with the counter at 1, `compare_try_pop` with expected key 3
writes the head key 4 into the caller's expected-key slot and returns
failure — but it leaves the size counter at 0: the restoring `+1` the
claim (and the spec's step 2) promises is missing from the mismatch path
of `try_pop_internal`, so the counter does not return to its pre-call
value 1. -/
theorem compare_try_pop_mismatch_leaves_counter_decremented :
    try_pop_internal (⟨[(4, 0)], 1⟩ : CSL Nat) 3 true
        = some (⟨false, 4, none⟩, ⟨[(4, 0)], 0⟩) ∧
      size (⟨[(4, 0)], 0⟩ : CSL Nat) ≠ size (⟨[(4, 0)], 1⟩ : CSL Nat) := by
  refine ⟨?_, by decide⟩
  decide

/-- Claim C2 (code-bug evidence): insert `(4, 0)` into a fresh list (one
successful insert, zero successful pops, one node in the chain), then run
a mismatching `compare_try_pop`.  The chain still holds exactly
`1 = #inserts − #pops` node, but `size()` now reports 0: the counter no
longer equals the two other quantities because the mismatch path dropped
a ticket. -/
theorem conservation_broken_by_mismatch :
    insert (emptyList Nat) 4 0 = ⟨[(4, 0)], 1⟩ ∧
      try_pop_internal (⟨[(4, 0)], 1⟩ : CSL Nat) 3 true
        = some (⟨false, 4, none⟩, ⟨[(4, 0)], 0⟩) ∧
      (⟨[(4, 0)], 0⟩ : CSL Nat).chain.length = 1 ∧
      size (⟨[(4, 0)], 0⟩ : CSL Nat) ≠ 1 := by
  refine ⟨by decide, by decide, by decide, by decide⟩

/-- Claim C3: on a list whose size counter is zero, `try_pop` and
`compare_try_pop` (both run through `try_pop_internal`, with any
`matchKey` and any expected key) detect the unsigned wrap of the
speculative decrement, reverse it with `+1`, return failure, and leave
the state — chain and counter — exactly as it was. -/
theorem try_pop_on_zero_counter_is_noop {α : Type} (s : CSL α) (e : Key)
    (m : Bool) (h : s.mySize = 0) :
    try_pop_internal s e m = some (⟨false, e, none⟩, s) :=
  pop_at_zero s e m h

theorem try_pop_on_zero_counter_is_noop_witness :
    (⟨[(5, 0)], 0⟩ : CSL Nat).mySize = 0 ∧
      try_pop_internal (⟨[(5, 0)], 0⟩ : CSL Nat) 7 true
        = some (⟨false, 7, none⟩, ⟨[(5, 0)], 0⟩) :=
  ⟨rfl, try_pop_on_zero_counter_is_noop (⟨[(5, 0)], 0⟩ : CSL Nat) 7 true rfl⟩

/-- Claim C4: in every quiescent state reached by completed `insert` /
`try_pop` / `compare_try_pop` (and even `unsafe_clear`) calls, the key
sequence obtained by following `next` from the sentinel is monotonically
non-decreasing, i.e. sorted for the negation of the strict-less
comparator. -/
theorem chain_keys_sorted {α : Type} {s : CSL α} (h : Reachable s) :
    (s.chain.map Prod.fst).Sorted (· ≤ ·) :=
  reach_sorted h

theorem chain_keys_sorted_witness :
    (((insert (insert (emptyList Nat) 7 0) 2 0).chain.map
      Prod.fst)).Sorted (· ≤ ·) :=
  chain_keys_sorted
    (Reachable.insert_step _ 2 0 (Reachable.insert_step _ 7 0 Reachable.init))

/-- Claim C5: `insert` is total (it surfaces no error) and on every input
produces the chain with the new node linked at a position respecting the
comparator — every node before it has a key `≤ k`, the rest of the chain
is untouched — and the size counter incremented by exactly one (the
hypothesis keeps the `size_t` increment from wrapping). -/
theorem insert_spec {α : Type} (s : CSL α) (k : Key) (v : α)
    (h : s.mySize + 1 < W) :
    ∃ pre suf, (insert s k v).chain = pre ++ (k, v) :: suf ∧
      s.chain = pre ++ suf ∧ (∀ p ∈ pre, p.1 ≤ k) ∧
      (insert s k v).mySize = s.mySize + 1 := by
  obtain ⟨pre, suf, h₁, h₂, h₃⟩ := insertChain_parts k v s.chain
  exact ⟨pre, suf, h₁, h₂, h₃, Nat.mod_eq_of_lt h⟩

theorem insert_spec_witness :
    (⟨[(2, 0)], 1⟩ : CSL Nat).mySize + 1 < W ∧
      ∃ pre suf,
        (insert (⟨[(2, 0)], 1⟩ : CSL Nat) 5 1).chain = pre ++ (5, 1) :: suf ∧
        (⟨[(2, 0)], 1⟩ : CSL Nat).chain = pre ++ suf ∧
        (∀ p ∈ pre, p.1 ≤ 5) ∧
        (insert (⟨[(2, 0)], 1⟩ : CSL Nat) 5 1).mySize =
          (⟨[(2, 0)], 1⟩ : CSL Nat).mySize + 1 :=
  ⟨by decide, insert_spec (⟨[(2, 0)], 1⟩ : CSL Nat) 5 1 (by decide)⟩

/-- Claim C6: in an inserts-first-then-pops-only schedule the keys handed
out by the successful `try_pop` calls form a non-decreasing sequence; in
particular inserting keys 7, 2, 5, 9, 2 (in that order) and draining
yields the keys 2, 2, 5, 7, 9. -/
theorem drain_after_inserts_sorted :
    (∀ (l : List (Key × Nat)) (n : Nat),
        l.length ≤ 9223372036854775808 →
        (popKeys n (runInserts l)).Sorted (· ≤ ·)) ∧
      popKeys 5 (runInserts [(7, 10), (2, 20), (5, 30), (9, 40), (2, 50)])
        = [2, 2, 5, 7, 9] := by
  constructor
  · intro l n hl
    have hbound0 : (emptyList Nat).chain.length + l.length < W := by
      show 0 + l.length < W
      rw [W_eq]
      omega
    obtain ⟨h₁, h₂⟩ := foldl_insert_wf l (emptyList Nat) rfl hbound0
    have hsorted := foldl_insert_sorted l (emptyList Nat)
      (by simp [emptyList])
    have hlen : (runInserts l).chain.length ≤ 9223372036854775809 := by
      show (l.foldl (fun s p => insert s p.1 p.2)
        (emptyList Nat)).chain.length ≤ _
      rw [h₂]
      show (emptyList Nat).chain.length + l.length ≤ _
      simp only [emptyList]
      simp
      omega
    have heq := popKeys_eq_take n (runInserts l) h₁ hlen
    rw [heq]
    exact List.Pairwise.sublist (List.take_sublist n _) hsorted
  · decide

theorem drain_after_inserts_sorted_witness :
    (popKeys 2 (runInserts [(3, 0), (1, 1)])).Sorted (· ≤ ·) :=
  drain_after_inserts_sorted.1 [(3, 0), (1, 1)] 2 (by decide)

/-- Claim C7: a key-mismatch failure of `compare_try_pop` overwrites the
caller's expected-key slot with exactly the observed head key and removes
no node: the chain after the call is identical to the chain before (the
counter, which the claim does not mention, is left decremented). -/
theorem compare_try_pop_mismatch_is_frame {α : Type} (s : CSL α) (k : Key)
    (v : α) (t : List (Key × α)) (e : Key) (hchain : s.chain = (k, v) :: t)
    (h1 : 1 ≤ s.mySize) (h2 : s.mySize ≤ 9223372036854775809)
    (hne : e ≠ k) :
    compare_try_pop s e
      = some (⟨false, k, none⟩, ⟨(k, v) :: t, s.mySize - 1⟩) :=
  pop_mismatch s k v t e hchain h1 h2 hne

theorem compare_try_pop_mismatch_is_frame_witness :
    compare_try_pop (⟨[(4, 0), (6, 1)], 2⟩ : CSL Nat) 5
      = some (⟨false, 4, none⟩, ⟨[(4, 0), (6, 1)], 1⟩) :=
  compare_try_pop_mismatch_is_frame (⟨[(4, 0), (6, 1)], 2⟩ : CSL Nat)
    4 0 [(6, 1)] 5 rfl (by decide) (by decide) (by decide)

/-- Claim C8: `try_peek_top_key` returns false on an empty chain (leaving
the out-slot alone), and on a non-empty chain returns true with the head
key copied to the out-slot — the minimum key whenever the chain is sorted
— while the state (chain and counter) is returned unchanged. -/
theorem try_peek_spec {α : Type} (s : CSL α) (o : Key) :
    (s.chain = [] → try_peek_top_key s o = (false, o, s)) ∧
      ∀ k v t, s.chain = (k, v) :: t →
        try_peek_top_key s o = (true, k, s) ∧
          ((s.chain.map Prod.fst).Sorted (· ≤ ·) →
            ∀ b ∈ s.chain.map Prod.fst, k ≤ b) := by
  obtain ⟨chain, c⟩ := s
  constructor
  · intro h
    simp only at h
    subst h
    rfl
  · intro k v t h
    simp only at h
    subst h
    refine ⟨rfl, ?_⟩
    intro hs b hb
    simp only [List.map_cons] at hs hb
    rw [List.sorted_cons] at hs
    rcases List.mem_cons.mp hb with hb | hb
    · exact Nat.le_of_eq hb.symm
    · exact hs.1 b hb

theorem try_peek_spec_witness :
    try_peek_top_key (emptyList Nat) 9 = (false, 9, emptyList Nat) ∧
      try_peek_top_key (⟨[(4, 7)], 1⟩ : CSL Nat) 9
        = (true, 4, ⟨[(4, 7)], 1⟩) :=
  ⟨(try_peek_spec (emptyList Nat) 9).1 rfl,
   ((try_peek_spec (⟨[(4, 7)], 1⟩ : CSL Nat) 9).2 4 7 [] rfl).1⟩

/-- Claim C9: on every reachable state, if the admission decrement of
`try_pop_internal` does not detect a wrap then the chain is non-empty, so
the load of the sentinel's `next` yields a node and the unguarded read of
its key never dereferences null — `try_pop_internal` never reaches the
null-head outcome at all. -/
theorem pop_admission_success_head_nonnull {α : Type} (s : CSL α)
    (e : Key) (m : Bool) (h : Reachable s) :
    (¬ sizeMax - ((s.mySize + sizeMax) % W) < threshhold →
        s.chain ≠ []) ∧
      try_pop_internal s e m ≠ none := by
  have hinv := reach_size_invariant h
  have hpos : ¬ sizeMax - ((s.mySize + sizeMax) % W) < threshhold →
      1 ≤ s.mySize := by
    intro hnw
    by_contra hc
    have h0 : s.mySize = 0 := by omega
    rw [h0, currentSize_of_zero] at hnw
    rw [sizeMax_eq, threshhold_eq] at hnw
    omega
  constructor
  · intro hnw hnil
    have h1 := hpos hnw
    have h2 := hinv.2
    rw [hnil] at h2
    simp at h2
    omega
  · rcases hchain : s.chain with _ | ⟨⟨k, v⟩, t⟩
    · have h0 : s.mySize = 0 := by
        have h2 := hinv.2
        rw [hchain] at h2
        simpa using h2
      rw [pop_at_zero s e m h0]
      simp
    · exact pop_ne_none_of_cons s e m k v t hchain

theorem pop_admission_success_head_nonnull_witness :
    (¬ sizeMax - (((insert (emptyList Nat) 1 0).mySize + sizeMax) % W) <
          threshhold →
        (insert (emptyList Nat) 1 0).chain ≠ []) ∧
      try_pop_internal (insert (emptyList Nat) 1 0) 0 false ≠ none :=
  pop_admission_success_head_nonnull (insert (emptyList Nat) 1 0) 0 false
    (Reachable.insert_step _ 1 0 Reachable.init)

/-- Claim C10: `unsafe_clear` never touches the sentinel's own `next`:
on a well-formed non-empty list it leaves the former head node hanging off
the sentinel (with its `next` nulled) while resetting the counter to 0, so
afterwards `size()` reads 0, `try_peek_top_key` still returns true with
the former head key (the former minimum when the chain was sorted), and
`try_pop` fails at the admission stage. -/
theorem unsafe_clear_keeps_sentinel_reference {α : Type} (s : CSL α)
    (k : Key) (v : α) (t : List (Key × α)) (hchain : s.chain = (k, v) :: t)
    (hwf : s.mySize = s.chain.length) :
    unsafe_clear s = some ⟨[(k, v)], 0⟩ ∧
      size (⟨[(k, v)], 0⟩ : CSL α) = 0 ∧
      (∀ o, try_peek_top_key (⟨[(k, v)], 0⟩ : CSL α) o
        = (true, k, ⟨[(k, v)], 0⟩)) ∧
      (∀ e m, try_pop_internal (⟨[(k, v)], 0⟩ : CSL α) e m
        = some (⟨false, e, none⟩, ⟨[(k, v)], 0⟩)) ∧
      ((s.chain.map Prod.fst).Sorted (· ≤ ·) →
        ∀ b ∈ s.chain.map Prod.fst, k ≤ b) := by
  obtain ⟨chain, c⟩ := s
  simp only at hchain hwf
  subst hchain
  have hc : c = t.length + 1 := by simpa using hwf
  refine ⟨?_, rfl, fun o => rfl, fun e m => pop_at_zero _ e m rfl, ?_⟩
  · rw [unsafe_clear]
    simp only
    rw [if_pos, if_neg]
    · simp [List.take]
    · omega
    · simp only [List.length_cons]
      omega
  · intro hs b hb
    simp only [List.map_cons] at hs hb
    rw [List.sorted_cons] at hs
    rcases List.mem_cons.mp hb with hb | hb
    · exact Nat.le_of_eq hb.symm
    · exact hs.1 b hb

theorem unsafe_clear_keeps_sentinel_reference_witness :
    unsafe_clear (⟨[(3, 5), (8, 6)], 2⟩ : CSL Nat) = some ⟨[(3, 5)], 0⟩ :=
  (unsafe_clear_keeps_sentinel_reference (⟨[(3, 5), (8, 6)], 2⟩ : CSL Nat)
    3 5 [(8, 6)] rfl rfl).1

end Claims

end Gdul
